import Mathlib

/-!
Shallow embedding of the filter design/apply engine of `src/libaf/filter.c`
(mpv, libaf).  Machine floating point (`_ftype_t`) is modelled by an arbitrary
linear ordered field `α` (instantiated with `ℚ` for concrete evaluations); the
external `math.h` functions `sin`/`tan` and the constant `M_PI` are parameters
(`sinf`, `tanf`, `pif`), since the repository does not define them.  The window
envelope generators (`boxcar` … `kaiser`) are declared external collaborators
by the spec and are modelled as an oracle record `WindowGen`.  C buffers are
modelled as Lean values: `_ftype_t*` in/out buffers become `List α` (read with
`getD`, written with `set`), the caller-owned 2-D polyphase bank and the flat
circular-history memory become functions `Nat → α`/`Nat → Nat → α`; the C
null-pointer checks have no counterpart for value buffers.  Filter/window
selector bits (`LP|HAMMING` style) are modelled as a record of the distinct
selections, which is exactly the information the bit tests `flags & …` read.
-/

namespace Mpv

/-! ### Generic list helpers -/

/-- Read of a list by index, defaulting to `0`, after a `set`. -/
theorem getD_set_over {α : Type} (l : List α) (i j : Nat) (v d : α) (hi : i < l.length) :
    (l.set i v).getD j d = if j = i then v else l.getD j d := by
  simp only [List.getD_eq_getElem?_getD, List.getElem?_set]
  rcases eq_or_ne i j with h | h
  · subst h
    simp [hi]
  · simp [h, Ne.symm h]

theorem getD_set_of_length_le {α : Type} (l : List α) (i j : Nat) (v d : α)
    (hi : l.length ≤ i) : (l.set i v).getD j d = l.getD j d := by
  rw [List.set_eq_of_length_le hi]

/-- Sum of a list as a `Finset.range` sum of its defaulted reads. -/
theorem sum_eq_sum_getD {α : Type} [AddCommMonoid α] (l : List α) :
    l.sum = ∑ j ∈ Finset.range l.length, l.getD j 0 := by
  induction l with
  | nil => simp
  | cons x xs ih =>
    rw [List.sum_cons, List.length_cons, Finset.sum_range_succ']
    simp only [List.getD_cons_succ, List.getD_cons_zero]
    rw [ih, add_comm]

/-- Alternating-sign sum `l[0] - l[1] + l[2] - …`. -/
def altSum {α : Type} [Ring α] : List α → α
  | [] => 0
  | x :: xs => x - altSum xs

theorem altSum_eq_sum_getD {α : Type} [CommRing α] (l : List α) :
    altSum l = ∑ j ∈ Finset.range l.length, (-1 : α) ^ j * l.getD j 0 := by
  induction l with
  | nil => simp [altSum]
  | cons x xs ih =>
    rw [altSum, List.length_cons, Finset.sum_range_succ']
    simp only [pow_succ, pow_zero, one_mul, List.getD_cons_succ, List.getD_cons_zero]
    rw [ih]
    have h1 : ∀ j ∈ Finset.range xs.length,
        (-1 : α) ^ j * -1 * xs.getD j 0 = -((-1 : α) ^ j * xs.getD j 0) := by
      intro j _
      ring
    rw [Finset.sum_congr rfl h1, Finset.sum_neg_distrib]
    ring

/-- Multiply the first `n` entries of a list by `c`, leaving the rest
untouched: the model of the C loop `for (i=0; i<n; i++) w[i] *= g;`. -/
def scaleFirst {α : Type} [Mul α] (c : α) : Nat → List α → List α
  | _, [] => []
  | 0, l => l
  | n + 1, x :: xs => (x * c) :: scaleFirst c n xs

theorem length_scaleFirst {α : Type} [Mul α] (c : α) :
    ∀ (n : Nat) (l : List α), (scaleFirst c n l).length = l.length := by
  intro n l
  induction l generalizing n with
  | nil => simp [scaleFirst]
  | cons x xs ih =>
    cases n with
    | zero => simp [scaleFirst]
    | succ m => simp [scaleFirst, ih]

theorem getD_scaleFirst {α : Type} [MulZeroClass α] (c : α) :
    ∀ (n j : Nat) (l : List α), j < n →
      (scaleFirst c n l).getD j 0 = l.getD j 0 * c := by
  intro n j l
  induction l generalizing n j with
  | nil => intro _; simp [scaleFirst]
  | cons x xs ih =>
    intro hj
    cases n with
    | zero => omega
    | succ m =>
      cases j with
      | zero => simp [scaleFirst]
      | succ i =>
        simp only [scaleFirst, List.getD_cons_succ]
        exact ih m i (by omega)

theorem sum_scaleFirst {α : Type} [CommRing α] (c : α) :
    ∀ (n : Nat) (l : List α), l.length ≤ n →
      (scaleFirst c n l).sum = c * l.sum := by
  intro n l
  induction l generalizing n with
  | nil => intro _; simp [scaleFirst]
  | cons x xs ih =>
    intro h
    cases n with
    | zero => simp at h
    | succ m =>
      simp only [scaleFirst, List.sum_cons]
      rw [ih m (by simpa using h)]
      ring

theorem altSum_scaleFirst {α : Type} [CommRing α] (c : α) :
    ∀ (n : Nat) (l : List α), l.length ≤ n →
      altSum (scaleFirst c n l) = c * altSum l := by
  intro n l
  induction l generalizing n with
  | nil => intro _; simp [scaleFirst, altSum]
  | cons x xs ih =>
    intro h
    cases n with
    | zero => simp at h
    | succ m =>
      simp only [scaleFirst, altSum]
      rw [ih m (by simpa using h)]
      ring

/-! ### Data model: window selectors and filter-type flags -/

/-- The window selector extracted by `flags & WINDOW_MASK`; `invalid` stands
for any bit pattern hitting the `default:` arm of the switch. -/
inductive WindowKind
  | boxcar | triang | hamming | hanning | blackman | flattop | kaiser | invalid
deriving DecidableEq

/-- Oracle for the external window-envelope generators declared in `dsp.h`:
each takes the length `n` (and for `kaiser` the shape parameter `opt`) and
returns the envelope it writes into the caller's buffer. -/
structure WindowGen (α : Type) where
  boxcar : Nat → List α
  triang : Nat → List α
  hamming : Nat → List α
  hanning : Nat → List α
  blackman : Nat → List α
  flattop : Nat → List α
  kaiser : Nat → α → List α

/-- The `switch (flags & WINDOW_MASK)` of `design_fir`: the buffer contents
after the selected generator ran, or `none` for the `default: return -1` arm. -/
def windowCoefs {α : Type} (gen : WindowGen α) (k : WindowKind) (n : Nat) (opt : α) :
    Option (List α) :=
  match k with
  | .boxcar => some (gen.boxcar n)
  | .triang => some (gen.triang n)
  | .hamming => some (gen.hamming n)
  | .hanning => some (gen.hanning n)
  | .blackman => some (gen.blackman n)
  | .flattop => some (gen.flattop n)
  | .kaiser => some (gen.kaiser n opt)
  | .invalid => none

/-- The `flags` argument of `design_fir`: the window selector plus the four
filter-type bits (`LP`, `HP`, `BP`, `BS`) that the code tests with `&`. -/
structure Flags where
  window : WindowKind
  lp : Bool
  hp : Bool
  bp : Bool
  bs : Bool
deriving DecidableEq

/-- A pure low-pass selector, e.g. `LP|HAMMING`. -/
def pureLP (wk : WindowKind) : Flags := ⟨wk, true, false, false, false⟩

/-- A pure high-pass selector. -/
def pureHP (wk : WindowKind) : Flags := ⟨wk, false, true, false, false⟩

/-- A pure band-pass selector. -/
def pureBP (wk : WindowKind) : Flags := ⟨wk, false, false, true, false⟩

/-- A pure band-stop selector. -/
def pureBS (wk : WindowKind) : Flags := ⟨wk, false, false, false, true⟩

/-! ### FIR design (`design_fir`) -/

variable {α : Type} [LinearOrderedField α]

/-- The defensive cutoff clamp
`fc1 = ((fc1 <= 1.0) && (fc1 > 0.0)) ? fc1/2 : 0.25;`. -/
def clampFC (c : α) : α := if c ≤ 1 ∧ 0 < c then c / 2 else 1 / 4

/-- The truncated-sinc kernel `sin(kk*t)/(M_PI*t)` appearing in every
design loop. -/
def sincT (sinf : α → α) (pif kk t : α) : α := sinf (kk * t) / (pif * t)

/-- New value of `w[end-i-1]` in the LP loop (old value `x`). -/
def lpTap (sinf : α → α) (pif k1 k2 : α) (i : Nat) (x : α) : α :=
  x * sincT sinf pif k1 ((i : α) + 1 - k2)

/-- New value of `w[end-i-1]` in the HP loop. -/
def hpTap (sinf : α → α) (pif k1 : α) (i : Nat) (x : α) : α :=
  -1 * x * sincT sinf pif k1 ((i : α) + 1)

/-- Gain increment of the HP loop:
`g += ((i&1) ? (2*w[end-i-1]) : (-2*w[end-i-1]))` on the just-written tap. -/
def hpGain (sinf : α → α) (pif k1 : α) (i : Nat) (x : α) : α :=
  if i % 2 = 1 then 2 * hpTap sinf pif k1 i x else -(2 * hpTap sinf pif k1 i x)

/-- New value of `w[end-i-1]` in the BP loop: `w * (t2 - t3)` with
`t2 = sinc fc2`, `t3 = sinc fc1`. -/
def bpTap (sinf : α → α) (pif k1 k3 k2 : α) (i : Nat) (x : α) : α :=
  x * (sincT sinf pif k3 ((i : α) + 1 - k2) - sincT sinf pif k1 ((i : α) + 1 - k2))

/-- Gain increment of the BP loop, read from the pre-update tap:
`g += w[end-i-1] * (t3 + t2)`. -/
def bpGain (sinf : α → α) (pif k1 k3 k2 : α) (i : Nat) (x : α) : α :=
  x * (sincT sinf pif k1 ((i : α) + 1 - k2) + sincT sinf pif k3 ((i : α) + 1 - k2))

/-- New value of `w[end-i-1]` in the BS loop: `w * (t2 - t3)` with
`t2 = sinc fc1`, `t3 = sinc fc2`. -/
def bsTap (sinf : α → α) (pif k1 k3 : α) (i : Nat) (x : α) : α :=
  x * (sincT sinf pif k1 ((i : α) + 1) - sincT sinf pif k3 ((i : α) + 1))

/-- One iteration of a mirrored design loop: read the old `w[e-i-1]`, write
the new tap `f i old` to both `w[e-i-1]` and `w[n-e+i]`, and add `gi i old`
to the running gain. -/
def mirrorStep (f gi : Nat → α → α) (n e : Nat) (wg : List α × α) (i : Nat) :
    List α × α :=
  let old := wg.1.getD (e - i - 1) 0
  let v := f i old
  (((wg.1.set (e - i - 1) v).set (n - e + i) v), wg.2 + gi i old)

/-- The mirrored design loop `for (i=0 ; i<end ; i++) …` shared by the four
filter kinds of `design_fir`. -/
def mirrorFold (f gi : Nat → α → α) (n e : Nat) (wg : List α × α) : List α × α :=
  (List.range e).foldl (mirrorStep f gi n e) wg

/-- Body of `design_fir` up to (not including) the gain normalization:
either the buffer contents at an early `return -1`, or the assembled
(unnormalized) taps together with the accumulated gain `g`. -/
def design_fir_core (sinf : α → α) (pif : α) (gen : WindowGen α) (n : Nat)
    (w fc : List α) (flags : Flags) (opt : α) : Except (List α) (List α × α) :=
  if n = 0 then .error w else
  match windowCoefs gen flags.window n opt with
  | none => .error w
  | some w1 =>
    let o : Nat := n % 2
    let e : Nat := (n + 1) / 2 - o
    let k2 : α := (1 - (o : α)) / 2
    let k10 : α := 2 * pif
    let p1 : Except (List α) (List α × α × α) :=
      if flags.lp || flags.hp then
        let fc1 := clampFC (fc.getD 0 0)
        let k1 := k10 * fc1
        if flags.lp then
          let wc := if o = 1 then w1.set e (fc1 * w1.getD e 0 * 2) else w1
          let g0 : α := if o = 1 then fc1 * w1.getD e 0 * 2 else 0
          let r := mirrorFold (lpTap sinf pif k1 k2)
            (fun i x => 2 * lpTap sinf pif k1 k2 i x) n e (wc, g0)
          .ok (r.1, r.2, k1)
        else if o = 0 then .error w1
        else
          let c : α := 1 - fc1 * w1.getD e 0 * 2
          let r := mirrorFold (hpTap sinf pif k1) (hpGain sinf pif k1) n e (w1.set e c, c)
          .ok (r.1, r.2, k1)
      else .ok (w1, 0, k10)
    match p1 with
    | .error we => .error we
    | .ok (w2, g2, k1b) =>
      if flags.bp || flags.bs then
        let fc1 := clampFC (fc.getD 0 0)
        let fc2 := clampFC (fc.getD 1 0)
        let k3 := k1b * fc2
        let k1c := k1b * fc1
        if flags.bp then
          let g0 : α := if o = 1 then w2.getD e 0 * (fc1 + fc2) else g2
          let wc := if o = 1 then w2.set e ((fc2 - fc1) * w2.getD e 0 * 2) else w2
          .ok (mirrorFold (bpTap sinf pif k1c k3 k2) (bpGain sinf pif k1c k3 k2) n e (wc, g0))
        else if o = 0 then .error w2
        else
          let c : α := 1 - (fc2 - fc1) * w2.getD e 0 * 2
          .ok (mirrorFold (bsTap sinf pif k1c k3)
            (fun i x => 2 * bsTap sinf pif k1c k3 i x) n e (w2.set e c, c))
      else .ok (w2, g2)

/-- `design_fir`: returns the C return code (`0` ok, `-1` fail) and the final
contents of the caller's tap buffer `w` (also on the failure paths, which in C
leave the partially-written buffer behind). -/
def design_fir (sinf : α → α) (pif : α) (gen : WindowGen α) (n : Nat)
    (w fc : List α) (flags : Flags) (opt : α) : Int × List α :=
  match design_fir_core sinf pif gen n w fc flags opt with
  | .error we => (-1, we)
  | .ok (wr, g) => (0, scaleFirst (1 / g) n wr)

/-- The accumulated gain `g` at the moment `design_fir` reaches
`g=1/g;` (defined as `0` on the early-return paths). -/
def design_fir_gain (sinf : α → α) (pif : α) (gen : WindowGen α) (n : Nat)
    (w fc : List α) (flags : Flags) (opt : α) : α :=
  match design_fir_core sinf pif gen n w fc flags opt with
  | .error _ => 0
  | .ok (_, g) => g

/-! ### Polyphase decomposition (`design_pfir`) -/

/-- `design_pfir`: fills the caller's `k`-row polyphase bank `pw` (modelled
as a total function of row and column) from the prototype taps `w`, walking
the taps with a running read index exactly as the C `*w++` pointer does.

C computes `int l = (int)n/k;` before checking `k`; `k = 0` is division by
zero there (undefined behavior), modelled here by Nat division `n / 0 = 0`,
which the `l < 1` check then rejects.  The `!w || !pw` null checks have no
counterpart for value buffers. -/
def design_pfir (n k : Nat) (w : List α) (pw : Nat → Nat → α) (g : α)
    (rew odd : Bool) : Int × (Nat → Nat → α) :=
  let l : Nat := n / k
  if l < 1 ∨ k < 1 then (-1, pw) else
  if rew then
    let st := ((List.range l).reverse).foldl (fun (st : Nat × (Nat → Nat → α)) j =>
      (List.range k).foldl (fun (st2 : Nat × (Nat → Nat → α)) i =>
        let t := g * w.getD st2.1 0
        (st2.1 + 1,
          fun i' j' => if i' = i ∧ j' = j then
              t * (if odd then (if j % 2 = 1 then -1 else 1) else 1)
            else st2.2 i' j')) st) (0, pw)
    (-1, st.2)
  else
    let st := (List.range l).foldl (fun (st : Nat × (Nat → Nat → α)) j =>
      (List.range k).foldl (fun (st2 : Nat × (Nat → Nat → α)) i =>
        let t := g * w.getD st2.1 0
        (st2.1 + 1,
          fun i' j' => if i' = i ∧ j' = j then
              t * (if odd then (if j % 2 = 1 then 1 else -1) else 1)
            else st2.2 i' j')) st) (0, pw)
    (-1, st.2)

/-! ### FIR runtime queue update (`updatepq`) -/

/-- `updatepq`: the `d` per-filter circular queues are contiguous slabs of
`2n` cells each inside one flat memory `xq` (the C code walks one pointer
across them in `2n` strides).  Writes sample `in[q*s]` to cells
`q*2n + xi` and `q*2n + xi + n` of queue `q`, and returns the advanced
cursor `(++xi) & (n-1)`. -/
def updatepq (n d xi : Nat) (xq : Nat → α) (inp : Nat → α) (s : Nat) :
    (Nat → α) × Nat :=
  let mem := (List.range d).foldl (fun m q =>
    fun addr =>
      if addr = 2 * n * q + xi ∨ addr = 2 * n * q + xi + n then inp (q * s)
      else m addr) xq
  (mem, (xi + 1) &&& (n - 1))

/-! ### IIR design (`prewarp`, `bilinear`, `szxform`) -/

/-- An s-domain coefficient triple `a[0], a[1], a[2]`. -/
structure Triple (α : Type) where
  c0 : α
  c1 : α
  c2 : α
deriving DecidableEq

/-- `prewarp`: `wp = 2*fs*tan(M_PI*fc/fs); a[2] /= wp*wp; a[1] /= wp;`. -/
def prewarp (tanf : α → α) (pif : α) (a : Triple α) (fc fs : α) : Triple α :=
  let wp := 2 * fs * tanf (pif * fc / fs)
  ⟨a.c0, a.c1 / wp, a.c2 / (wp * wp)⟩

/-- `bilinear`: returns the updated gain accumulator `k * (ad/bd)` and the
four z-domain coefficients `(beta1, beta2, alpha1, alpha2)`. -/
def bilinear (a b : Triple α) (k fs : α) : α × (α × α × α × α) :=
  let ad := 4 * a.c2 * fs * fs + 2 * a.c1 * fs + a.c0
  let bd := 4 * b.c2 * fs * fs + 2 * b.c1 * fs + b.c0
  (k * (ad / bd),
    ((2 * b.c0 - 8 * b.c2 * fs * fs) / bd,
     (4 * b.c2 * fs * fs - 2 * b.c1 * fs + b.c0) / bd,
     (2 * a.c0 - 8 * a.c2 * fs * fs) / ad,
     (4 * a.c2 * fs * fs - 2 * a.c1 * fs + a.c0) / ad))

/-- `szxform`: one cascaded section.  Copies `a`,`b`, applies the resonance
division `bt[1] /= Q`, prewarps both triples and runs the bilinear transform.
Fails (`none`, C `-1`) when `Q > 1000 || Q < 1`; the `!a || !b || !k || !coef`
null checks have no counterpart for value arguments. -/
def szxform (tanf : α → α) (pif : α) (a b : Triple α) (Q fc fs k : α) :
    Option (α × (α × α × α × α)) :=
  if Q > 1000 ∨ Q < 1 then none
  else
    let bt : Triple α := ⟨b.c0, b.c1 / Q, b.c2⟩
    let aw := prewarp tanf pif a fc fs
    let bw := prewarp tanf pif bt fc fs
    some (bilinear aw bw k fs)

/-- One section of an IIR cascade: raw s-domain triples plus `Q`, cutoff and
sample rate for its `szxform` call. -/
structure SectionSpec (α : Type) where
  a : Triple α
  b : Triple α
  q : α
  fc : α
  fs : α
deriving DecidableEq

/-- A cascade of `szxform` calls threading the shared gain accumulator `k`;
stops with `none` as soon as one call fails. -/
def cascade (tanf : α → α) (pif : α) : List (SectionSpec α) → α → Option α
  | [], k => some k
  | s :: rest, k =>
    match szxform tanf pif s.a s.b s.q s.fc s.fs k with
    | none => none
    | some (k', _) => cascade tanf pif rest k'

/-- `ad` of one section, computed independently from its raw coefficients:
the numerator value `4*a2*fs^2 + 2*a1*fs + a0` after prewarping. -/
def sectionAD (tanf : α → α) (pif : α) (s : SectionSpec α) : α :=
  let aw := prewarp tanf pif s.a s.fc s.fs
  4 * aw.c2 * s.fs * s.fs + 2 * aw.c1 * s.fs + aw.c0

/-- `bd` of one section: the denominator value after the `Q` division and
prewarping. -/
def sectionBD (tanf : α → α) (pif : α) (s : SectionSpec α) : α :=
  let bw := prewarp tanf pif ⟨s.b.c0, s.b.c1 / s.q, s.b.c2⟩ s.fc s.fs
  4 * bw.c2 * s.fs * s.fs + 2 * bw.c1 * s.fs + bw.c0

/-! ### Characterization of the mirrored design loop -/

theorem mirrorFold_aux (f gi : Nat → α → α) (n e : Nat) (w : List α) (g : α)
    (hw : w.length = n) (he : 2 * e ≤ n) :
    ∀ m, m ≤ e →
      ((List.range m).foldl (mirrorStep f gi n e) (w, g)).1.length = n ∧
      (∀ j, ((List.range m).foldl (mirrorStep f gi n e) (w, g)).1.getD j 0 =
        if e - m ≤ j ∧ j < e then f (e - 1 - j) (w.getD j 0)
        else if n - e ≤ j ∧ j < n - e + m then f (j - (n - e)) (w.getD (n - 1 - j) 0)
        else w.getD j 0) ∧
      ((List.range m).foldl (mirrorStep f gi n e) (w, g)).2 =
        g + ∑ i ∈ Finset.range m, gi i (w.getD (e - 1 - i) 0) := by
  intro m
  induction m with
  | zero =>
    intro _
    simp only [List.range_zero, List.foldl_nil]
    refine ⟨hw, ?_, by simp⟩
    intro j
    have h1 : ¬(e - 0 ≤ j ∧ j < e) := by omega
    have h2 : ¬(n - e ≤ j ∧ j < n - e + 0) := by omega
    rw [if_neg h1, if_neg h2]
  | succ m ih =>
    intro hm
    obtain ⟨ihlen, ihget, ihg⟩ := ih (by omega)
    rw [List.range_succ, List.foldl_append, List.foldl_cons, List.foldl_nil]
    set prev := (List.range m).foldl (mirrorStep f gi n e) (w, g) with hprev
    have hread : prev.1.getD (e - m - 1) 0 = w.getD (e - m - 1) 0 := by
      have h1 : ¬(e - m ≤ e - m - 1 ∧ e - m - 1 < e) := by omega
      have h2 : ¬(n - e ≤ e - m - 1 ∧ e - m - 1 < n - e + m) := by omega
      rw [ihget, if_neg h1, if_neg h2]
    have hAlen : e - m - 1 < prev.1.length := by
      rw [ihlen]
      omega
    have hBlen : n - e + m <
        (prev.1.set (e - m - 1) (f m (prev.1.getD (e - m - 1) 0))).length := by
      rw [List.length_set, ihlen]
      omega
    refine ⟨?_, ?_, ?_⟩
    · simp [mirrorStep, List.length_set, ihlen]
    · intro j
      simp only [mirrorStep]
      rw [getD_set_over _ _ _ _ _ hBlen, getD_set_over _ _ _ _ _ hAlen, hread]
      by_cases hB : j = n - e + m
      · subst hB
        rw [if_pos rfl]
        have hc1 : ¬(e - (m + 1) ≤ n - e + m ∧ n - e + m < e) := by omega
        have hc2 : n - e ≤ n - e + m ∧ n - e + m < n - e + (m + 1) := by omega
        rw [if_neg hc1, if_pos hc2]
        have h3 : n - e + m - (n - e) = m := by omega
        have h4 : n - 1 - (n - e + m) = e - m - 1 := by omega
        rw [h3, h4]
      · rw [if_neg hB]
        by_cases hA : j = e - m - 1
        · subst hA
          rw [if_pos rfl]
          have hc1 : e - (m + 1) ≤ e - m - 1 ∧ e - m - 1 < e := by omega
          rw [if_pos hc1]
          have h3 : e - 1 - (e - m - 1) = m := by omega
          rw [h3]
        · rw [if_neg hA, ihget j]
          by_cases hc1 : e - m ≤ j ∧ j < e
          · have hc1' : e - (m + 1) ≤ j ∧ j < e := by omega
            rw [if_pos hc1, if_pos hc1']
          · by_cases hc2 : n - e ≤ j ∧ j < n - e + m
            · have hc1' : ¬(e - (m + 1) ≤ j ∧ j < e) := by omega
              have hc2' : n - e ≤ j ∧ j < n - e + (m + 1) := by omega
              rw [if_neg hc1, if_pos hc2, if_neg hc1', if_pos hc2']
            · have hc1' : ¬(e - (m + 1) ≤ j ∧ j < e) := by omega
              have hc2' : ¬(n - e ≤ j ∧ j < n - e + (m + 1)) := by omega
              rw [if_neg hc1, if_neg hc2, if_neg hc1', if_neg hc2']
    · simp only [mirrorStep]
      rw [hread, ihg, Finset.sum_range_succ]
      have h3 : e - 1 - m = e - m - 1 := by omega
      rw [h3, add_assoc]

/-- Closed form of the shared design loop: final buffer length, the value at
every index (first `e` positions and their mirrors hold the new taps, the
center is untouched), and the accumulated gain. -/
theorem mirrorFold_spec (f gi : Nat → α → α) (n e : Nat) (w : List α) (g : α)
    (hw : w.length = n) (he : 2 * e ≤ n) :
    (mirrorFold f gi n e (w, g)).1.length = n ∧
    (∀ j, (mirrorFold f gi n e (w, g)).1.getD j 0 =
      if j < e then f (e - 1 - j) (w.getD j 0)
      else if n - e ≤ j ∧ j < n then f (j - (n - e)) (w.getD (n - 1 - j) 0)
      else w.getD j 0) ∧
    (mirrorFold f gi n e (w, g)).2 =
      g + ∑ i ∈ Finset.range e, gi i (w.getD (e - 1 - i) 0) := by
  obtain ⟨h1, h2, h3⟩ := mirrorFold_aux f gi n e w g hw he e le_rfl
  refine ⟨h1, ?_, h3⟩
  intro j
  have h2j := h2 j
  rw [mirrorFold, h2j]
  have hz : e - e = 0 := by omega
  have hn : n - e + e = n := by omega
  rw [hz, hn]
  simp only [Nat.zero_le, true_and]

/-! ### Shape of `design_fir` on pure filter-kind selectors -/

/-- The LP branch of `design_fir` (center tap, then the mirrored sinc loop),
as assembled from the window envelope `env`, before normalization. -/
def lpAssemble (sinf : α → α) (pif : α) (env fc : List α) (n : Nat) : List α × α :=
  let o := n % 2
  let e := (n + 1) / 2 - o
  let k2 : α := (1 - (o : α)) / 2
  let fc1 := clampFC (fc.getD 0 0)
  let k1 := 2 * pif * fc1
  let wc := if o = 1 then env.set e (fc1 * env.getD e 0 * 2) else env
  let g0 : α := if o = 1 then fc1 * env.getD e 0 * 2 else 0
  mirrorFold (lpTap sinf pif k1 k2) (fun i x => 2 * lpTap sinf pif k1 k2 i x) n e (wc, g0)

/-- The HP branch of `design_fir` (odd `n` only), before normalization. -/
def hpAssemble (sinf : α → α) (pif : α) (env fc : List α) (n : Nat) : List α × α :=
  let e := (n + 1) / 2 - n % 2
  let fc1 := clampFC (fc.getD 0 0)
  let k1 := 2 * pif * fc1
  let c : α := 1 - fc1 * env.getD e 0 * 2
  mirrorFold (hpTap sinf pif k1) (hpGain sinf pif k1) n e (env.set e c, c)

/-- The BP branch of `design_fir`, before normalization. -/
def bpAssemble (sinf : α → α) (pif : α) (env fc : List α) (n : Nat) : List α × α :=
  let o := n % 2
  let e := (n + 1) / 2 - o
  let k2 : α := (1 - (o : α)) / 2
  let fc1 := clampFC (fc.getD 0 0)
  let fc2 := clampFC (fc.getD 1 0)
  let k3 := 2 * pif * fc2
  let k1 := 2 * pif * fc1
  let g0 : α := if o = 1 then env.getD e 0 * (fc1 + fc2) else 0
  let wc := if o = 1 then env.set e ((fc2 - fc1) * env.getD e 0 * 2) else env
  mirrorFold (bpTap sinf pif k1 k3 k2) (bpGain sinf pif k1 k3 k2) n e (wc, g0)

/-- The BS branch of `design_fir` (odd `n` only), before normalization. -/
def bsAssemble (sinf : α → α) (pif : α) (env fc : List α) (n : Nat) : List α × α :=
  let e := (n + 1) / 2 - n % 2
  let fc1 := clampFC (fc.getD 0 0)
  let fc2 := clampFC (fc.getD 1 0)
  let k3 := 2 * pif * fc2
  let k1 := 2 * pif * fc1
  let c : α := 1 - (fc2 - fc1) * env.getD e 0 * 2
  mirrorFold (bsTap sinf pif k1 k3) (fun i x => 2 * bsTap sinf pif k1 k3 i x) n e
    (env.set e c, c)

theorem core_pureLP (sinf : α → α) (pif : α) (gen : WindowGen α) (n : Nat)
    (w fc : List α) (wk : WindowKind) (opt : α) (env : List α)
    (hn : n ≠ 0) (hwin : windowCoefs gen wk n opt = some env) :
    design_fir_core sinf pif gen n w fc (pureLP wk) opt =
      .ok (lpAssemble sinf pif env fc n) := by
  unfold design_fir_core lpAssemble
  simp only [pureLP]
  rw [if_neg hn, hwin]
  simp

theorem core_pureHP (sinf : α → α) (pif : α) (gen : WindowGen α) (n : Nat)
    (w fc : List α) (wk : WindowKind) (opt : α) (env : List α)
    (hn : n ≠ 0) (ho : n % 2 = 1) (hwin : windowCoefs gen wk n opt = some env) :
    design_fir_core sinf pif gen n w fc (pureHP wk) opt =
      .ok (hpAssemble sinf pif env fc n) := by
  unfold design_fir_core hpAssemble
  simp only [pureHP]
  rw [if_neg hn, hwin]
  simp [ho]

theorem core_pureBP (sinf : α → α) (pif : α) (gen : WindowGen α) (n : Nat)
    (w fc : List α) (wk : WindowKind) (opt : α) (env : List α)
    (hn : n ≠ 0) (hwin : windowCoefs gen wk n opt = some env) :
    design_fir_core sinf pif gen n w fc (pureBP wk) opt =
      .ok (bpAssemble sinf pif env fc n) := by
  unfold design_fir_core bpAssemble
  simp only [pureBP]
  rw [if_neg hn, hwin]
  simp

theorem core_pureBS (sinf : α → α) (pif : α) (gen : WindowGen α) (n : Nat)
    (w fc : List α) (wk : WindowKind) (opt : α) (env : List α)
    (hn : n ≠ 0) (ho : n % 2 = 1) (hwin : windowCoefs gen wk n opt = some env) :
    design_fir_core sinf pif gen n w fc (pureBS wk) opt =
      .ok (bsAssemble sinf pif env fc n) := by
  unfold design_fir_core bsAssemble
  simp only [pureBS]
  rw [if_neg hn, hwin]
  simp [ho]

/-! ### Return code and congruence facts for `design_fir` -/

/-- Complete characterization of the C return code of `design_fir`: `-1`
exactly on the `n == 0` check, the window `default:` arm, and the two parity
checks; nothing else — in particular not the accumulated gain — influences
it. -/
theorem design_fir_fst_eq (sinf : α → α) (pif : α) (gen : WindowGen α) (n : Nat)
    (w fc : List α) (flags : Flags) (opt : α) :
    (design_fir sinf pif gen n w fc flags opt).1 =
      if n = 0 ∨ flags.window = .invalid
          ∨ (flags.hp = true ∧ flags.lp = false ∧ n % 2 = 0)
          ∨ (flags.bs = true ∧ flags.bp = false ∧ n % 2 = 0) then -1 else 0 := by
  rcases flags with ⟨wk, lp, hp, bp, bs⟩
  by_cases hn : n = 0
  · simp [design_fir, design_fir_core, hn]
  · have hwc : (wk = WindowKind.invalid ∧ windowCoefs gen wk n opt = none) ∨
        (wk ≠ WindowKind.invalid ∧ ∃ env, windowCoefs gen wk n opt = some env) := by
      cases wk <;> simp [windowCoefs]
    rcases hwc with ⟨hwk, hnone⟩ | ⟨hwk, env, hsome⟩
    · subst hwk
      simp [design_fir, design_fir_core, hn, hnone]
    · rcases Nat.mod_two_eq_zero_or_one n with ho | ho <;>
        (unfold design_fir design_fir_core
         rw [if_neg hn, hsome]
         cases lp <;> cases hp <;> cases bp <;> cases bs <;> simp [hn, hwk, ho])

/-- `design_fir` reads its cutoff buffer only through the defensive clamp of
`fc[0]` and `fc[1]`. -/
theorem design_fir_fc_congr (sinf : α → α) (pif : α) (gen : WindowGen α) (n : Nat)
    (w fc fc' : List α) (flags : Flags) (opt : α)
    (h0 : clampFC (fc.getD 0 0) = clampFC (fc'.getD 0 0))
    (h1 : clampFC (fc.getD 1 0) = clampFC (fc'.getD 1 0)) :
    design_fir sinf pif gen n w fc flags opt =
      design_fir sinf pif gen n w fc' flags opt := by
  unfold design_fir design_fir_core
  rw [h0, h1]

/-- On every failure path of `design_fir` the accumulated gain (as reported
by `design_fir_gain`) is the initial `0`. -/
theorem gain_zero_of_ret_fail (sinf : α → α) (pif : α) (gen : WindowGen α) (n : Nat)
    (w fc : List α) (flags : Flags) (opt : α)
    (h : (design_fir sinf pif gen n w fc flags opt).1 ≠ 0) :
    design_fir_gain sinf pif gen n w fc flags opt = 0 := by
  unfold design_fir at h
  unfold design_fir_gain
  cases hcore : design_fir_core sinf pif gen n w fc flags opt with
  | error we => rfl
  | ok p =>
    rw [hcore] at h
    simp at h

/-! ### Index-sum splitting for the mirrored loop -/

theorem sum_range_split_mirror {M : Type} [AddCommMonoid M] (F : Nat → M) (n e : Nat)
    (he : 2 * e ≤ n) :
    ∑ j ∈ Finset.range n, F j =
      (∑ j ∈ Finset.range e, F j) + (∑ i ∈ Finset.range (n - 2 * e), F (e + i)) +
      (∑ i ∈ Finset.range e, F (n - e + i)) := by
  rw [Finset.range_eq_Ico,
    ← Finset.sum_Ico_consecutive F (Nat.zero_le (n - e)) (by omega : n - e ≤ n),
    ← Finset.sum_Ico_consecutive F (Nat.zero_le e) (by omega : e ≤ n - e)]
  simp only [Finset.sum_Ico_eq_sum_range, Nat.sub_zero, Nat.zero_add]
  have h1 : n - (n - e) = e := by omega
  have h2 : n - e - e = n - 2 * e := by omega
  rw [h1, h2]

/-- Symmetry of the mirrored design loop's output buffer: for any tap
function `f` and any initial buffer of length `n`, position `i` and its
mirror `n-1-i` hold equal values. -/
theorem mirrorFold_symmetric (f gi : Nat → α → α) (n : Nat) (wc : List α) (g0 : α)
    (hw : wc.length = n) :
    ∀ i < n, (mirrorFold f gi n ((n + 1) / 2 - n % 2) (wc, g0)).1.getD i 0 =
      (mirrorFold f gi n ((n + 1) / 2 - n % 2) (wc, g0)).1.getD (n - 1 - i) 0 := by
  intro i hi
  set e := (n + 1) / 2 - n % 2 with hedef
  have he : 2 * e ≤ n := by omega
  obtain ⟨h1, h2, h3⟩ := mirrorFold_spec f gi n e wc g0 hw he
  rw [h2 i, h2 (n - 1 - i)]
  by_cases hie : i < e
  · have hm1 : ¬(n - 1 - i < e) := by omega
    have hm2 : n - e ≤ n - 1 - i ∧ n - 1 - i < n := by omega
    rw [if_pos hie, if_neg hm1, if_pos hm2]
    have ha : n - 1 - i - (n - e) = e - 1 - i := by omega
    have hb : n - 1 - (n - 1 - i) = i := by omega
    rw [ha, hb]
  · by_cases hup : n - e ≤ i
    · have hm1 : n - 1 - i < e := by omega
      rw [if_neg hie, if_pos ⟨hup, hi⟩, if_pos hm1]
      have ha : e - 1 - (n - 1 - i) = i - (n - e) := by omega
      rw [ha]
    · have hc : ¬(n - e ≤ i ∧ i < n) := by omega
      have hc2 : ¬(n - 1 - i < e) := by omega
      have hc3 : ¬(n - e ≤ n - 1 - i ∧ n - 1 - i < n) := by omega
      rw [if_neg hie, if_neg hc, if_neg hc2, if_neg hc3]
      have hmid : n - 1 - i = i := by omega
      rw [hmid]

/-! ### Gain identities of the mirrored loop -/

/-- For a loop whose gain increment is `2 *` the written tap (LP and BS), the
sum of the final buffer equals the final accumulated gain. -/
theorem mirror_sum_two_f (f : Nat → α → α) (n e : Nat) (wc : List α) (g0 : α)
    (hedef : e = (n + 1) / 2 - n % 2) (hw : wc.length = n)
    (hmid1 : n % 2 = 1 → wc.getD e 0 = g0) (hmid0 : n % 2 = 0 → g0 = 0) :
    (mirrorFold f (fun i x => 2 * f i x) n e (wc, g0)).1.sum =
      (mirrorFold f (fun i x => 2 * f i x) n e (wc, g0)).2 := by
  have he : 2 * e ≤ n := by omega
  obtain ⟨h1, h2, h3⟩ := mirrorFold_spec f (fun i x => 2 * f i x) n e wc g0 hw he
  rw [sum_eq_sum_getD, h1, h3, sum_range_split_mirror
    (fun j => (mirrorFold f (fun i x => 2 * f i x) n e (wc, g0)).1.getD j 0) n e he]
  have hc1 : ∑ j ∈ Finset.range e,
      (mirrorFold f (fun i x => 2 * f i x) n e (wc, g0)).1.getD j 0 =
      ∑ i ∈ Finset.range e, f i (wc.getD (e - 1 - i) 0) := by
    rw [← Finset.sum_range_reflect (fun i => f i (wc.getD (e - 1 - i) 0)) e]
    apply Finset.sum_congr rfl
    intro j hj
    have hj' : j < e := Finset.mem_range.1 hj
    have hh : e - 1 - (e - 1 - j) = j := by omega
    simp only [h2 j, if_pos hj', hh]
  have hc3 : ∑ i ∈ Finset.range e,
      (mirrorFold f (fun i x => 2 * f i x) n e (wc, g0)).1.getD (n - e + i) 0 =
      ∑ i ∈ Finset.range e, f i (wc.getD (e - 1 - i) 0) := by
    apply Finset.sum_congr rfl
    intro i hi
    have hi' : i < e := Finset.mem_range.1 hi
    have hcond1 : ¬(n - e + i < e) := by omega
    have hcond2 : n - e ≤ n - e + i ∧ n - e + i < n := by omega
    have ha : n - e + i - (n - e) = i := by omega
    have hb : n - 1 - (n - e + i) = e - 1 - i := by omega
    rw [h2 (n - e + i), if_neg hcond1, if_pos hcond2, ha, hb]
  have hmid : ∑ i ∈ Finset.range (n - 2 * e),
      (mirrorFold f (fun i x => 2 * f i x) n e (wc, g0)).1.getD (e + i) 0 = g0 := by
    rcases Nat.mod_two_eq_zero_or_one n with ho | ho
    · have hz : n - 2 * e = 0 := by omega
      rw [hz, Finset.range_zero, Finset.sum_empty, hmid0 ho]
    · have hz : n - 2 * e = 1 := by omega
      have hcond1 : ¬(e < e) := by omega
      have hcond2 : ¬(n - e ≤ e ∧ e < n) := by omega
      rw [hz, Finset.sum_range_one, Nat.add_zero, h2 e, if_neg hcond1, if_neg hcond2,
        hmid1 ho]
  have hmul : (∑ i ∈ Finset.range e, 2 * f i (wc.getD (e - 1 - i) 0)) =
      2 * ∑ i ∈ Finset.range e, f i (wc.getD (e - 1 - i) 0) := (Finset.mul_sum _ _ _).symm
  rw [hc1, hc3, hmid]
  linear_combination -hmul

/-- Sign bookkeeping for the HP alternating sum: the combined weight of the
pair of mirror positions holding tap `i` matches `(-1)^e` times the HP gain
coefficient. -/
theorem neg_one_pow_mirror_coef (e i n : Nat) (hi : i < e) (hn : n = 2 * e + 1) (x : α) :
    (-1 : α) ^ (e - 1 - i) * x + (-1 : α) ^ (n - e + i) * x =
      (-1 : α) ^ e * (if i % 2 = 1 then 2 * x else -(2 * x)) := by
  obtain ⟨d, hd⟩ : ∃ d, e = d + (i + 1) := ⟨e - 1 - i, by omega⟩
  subst hd
  subst hn
  have ha : d + (i + 1) - 1 - i = d := by omega
  have hb : 2 * (d + (i + 1)) + 1 - (d + (i + 1)) + i = d + 2 * (i + 1) := by omega
  rw [ha, hb, pow_add, pow_mul, neg_one_sq, one_pow, mul_one, pow_add]
  rcases Nat.mod_two_eq_zero_or_one i with hp2 | hp2
  · have hodd : Odd (i + 1) := Nat.odd_iff.2 (by omega)
    rw [hodd.neg_one_pow, hp2]
    norm_num
    ring
  · have heven : Even (i + 1) := Nat.even_iff.2 (by omega)
    rw [heven.neg_one_pow, hp2]
    norm_num
    ring

/-- For the HP loop (odd `n`), the alternating-sign sum of the final buffer
equals `(-1)^e` times the final accumulated gain. -/
theorem mirror_altSum_hp (sinf : α → α) (pif k1 : α) (n e : Nat) (wc : List α) (g0 : α)
    (hedef : e = (n + 1) / 2 - n % 2) (ho : n % 2 = 1) (hw : wc.length = n)
    (hmid : wc.getD e 0 = g0) :
    altSum (mirrorFold (hpTap sinf pif k1) (hpGain sinf pif k1) n e (wc, g0)).1 =
      (-1 : α) ^ e *
        (mirrorFold (hpTap sinf pif k1) (hpGain sinf pif k1) n e (wc, g0)).2 := by
  have he : 2 * e ≤ n := by omega
  have hn21 : n = 2 * e + 1 := by omega
  obtain ⟨h1, h2, h3⟩ :=
    mirrorFold_spec (hpTap sinf pif k1) (hpGain sinf pif k1) n e wc g0 hw he
  rw [altSum_eq_sum_getD, h1, h3, sum_range_split_mirror
    (fun j => (-1 : α) ^ j *
      (mirrorFold (hpTap sinf pif k1) (hpGain sinf pif k1) n e (wc, g0)).1.getD j 0) n e he]
  have hc1 : ∑ j ∈ Finset.range e, (-1 : α) ^ j *
      (mirrorFold (hpTap sinf pif k1) (hpGain sinf pif k1) n e (wc, g0)).1.getD j 0 =
      ∑ i ∈ Finset.range e,
        (-1 : α) ^ (e - 1 - i) * hpTap sinf pif k1 i (wc.getD (e - 1 - i) 0) := by
    rw [← Finset.sum_range_reflect
      (fun i => (-1 : α) ^ (e - 1 - i) * hpTap sinf pif k1 i (wc.getD (e - 1 - i) 0)) e]
    apply Finset.sum_congr rfl
    intro j hj
    have hj' : j < e := Finset.mem_range.1 hj
    have hh : e - 1 - (e - 1 - j) = j := by omega
    simp only [h2 j, if_pos hj', hh]
  have hc3 : ∑ i ∈ Finset.range e, (-1 : α) ^ (n - e + i) *
      (mirrorFold (hpTap sinf pif k1) (hpGain sinf pif k1) n e (wc, g0)).1.getD (n - e + i) 0 =
      ∑ i ∈ Finset.range e,
        (-1 : α) ^ (n - e + i) * hpTap sinf pif k1 i (wc.getD (e - 1 - i) 0) := by
    apply Finset.sum_congr rfl
    intro i hi
    have hi' : i < e := Finset.mem_range.1 hi
    have hcond1 : ¬(n - e + i < e) := by omega
    have hcond2 : n - e ≤ n - e + i ∧ n - e + i < n := by omega
    have ha : n - e + i - (n - e) = i := by omega
    have hb : n - 1 - (n - e + i) = e - 1 - i := by omega
    rw [h2 (n - e + i), if_neg hcond1, if_pos hcond2, ha, hb]
  have hmid2 : ∑ i ∈ Finset.range (n - 2 * e), (-1 : α) ^ (e + i) *
      (mirrorFold (hpTap sinf pif k1) (hpGain sinf pif k1) n e (wc, g0)).1.getD (e + i) 0 =
      (-1 : α) ^ e * g0 := by
    have hz : n - 2 * e = 1 := by omega
    have hcond1 : ¬(e < e) := by omega
    have hcond2 : ¬(n - e ≤ e ∧ e < n) := by omega
    rw [hz, Finset.sum_range_one, Nat.add_zero, h2 e, if_neg hcond1, if_neg hcond2, hmid]
  have hpair : (∑ i ∈ Finset.range e,
        (-1 : α) ^ (e - 1 - i) * hpTap sinf pif k1 i (wc.getD (e - 1 - i) 0)) +
      (∑ i ∈ Finset.range e,
        (-1 : α) ^ (n - e + i) * hpTap sinf pif k1 i (wc.getD (e - 1 - i) 0)) =
      (-1 : α) ^ e * ∑ i ∈ Finset.range e, hpGain sinf pif k1 i (wc.getD (e - 1 - i) 0) := by
    rw [← Finset.sum_add_distrib, Finset.mul_sum]
    apply Finset.sum_congr rfl
    intro i hi
    exact (neg_one_pow_mirror_coef e i n (Finset.mem_range.1 hi) hn21 _).trans
      (by rw [hpGain])
  rw [hc1, hmid2, hc3]
  linear_combination hpair

/-! ### Lengths, symmetry and gain identities of the four assemblies -/

theorem foldl_mirrorStep_length (f gi : Nat → α → α) (n e : Nat) :
    ∀ (L : List Nat) (wg : List α × α),
      (L.foldl (mirrorStep f gi n e) wg).1.length = wg.1.length := by
  intro L
  induction L with
  | nil => intro wg; rfl
  | cons a L ih =>
    intro wg
    rw [List.foldl_cons, ih]
    simp [mirrorStep]

theorem design_fir_pureLP_out (sinf : α → α) (pif : α) (gen : WindowGen α) (n : Nat)
    (w fc : List α) (wk : WindowKind) (opt : α) (env : List α)
    (hn : n ≠ 0) (hwin : windowCoefs gen wk n opt = some env) :
    design_fir sinf pif gen n w fc (pureLP wk) opt =
      (0, scaleFirst (1 / (lpAssemble sinf pif env fc n).2) n
        (lpAssemble sinf pif env fc n).1) ∧
    design_fir_gain sinf pif gen n w fc (pureLP wk) opt =
      (lpAssemble sinf pif env fc n).2 := by
  unfold design_fir design_fir_gain
  rw [core_pureLP sinf pif gen n w fc wk opt env hn hwin]
  exact ⟨rfl, rfl⟩

theorem design_fir_pureHP_out (sinf : α → α) (pif : α) (gen : WindowGen α) (n : Nat)
    (w fc : List α) (wk : WindowKind) (opt : α) (env : List α)
    (hn : n ≠ 0) (ho : n % 2 = 1) (hwin : windowCoefs gen wk n opt = some env) :
    design_fir sinf pif gen n w fc (pureHP wk) opt =
      (0, scaleFirst (1 / (hpAssemble sinf pif env fc n).2) n
        (hpAssemble sinf pif env fc n).1) ∧
    design_fir_gain sinf pif gen n w fc (pureHP wk) opt =
      (hpAssemble sinf pif env fc n).2 := by
  unfold design_fir design_fir_gain
  rw [core_pureHP sinf pif gen n w fc wk opt env hn ho hwin]
  exact ⟨rfl, rfl⟩

theorem design_fir_pureBP_out (sinf : α → α) (pif : α) (gen : WindowGen α) (n : Nat)
    (w fc : List α) (wk : WindowKind) (opt : α) (env : List α)
    (hn : n ≠ 0) (hwin : windowCoefs gen wk n opt = some env) :
    design_fir sinf pif gen n w fc (pureBP wk) opt =
      (0, scaleFirst (1 / (bpAssemble sinf pif env fc n).2) n
        (bpAssemble sinf pif env fc n).1) := by
  unfold design_fir
  rw [core_pureBP sinf pif gen n w fc wk opt env hn hwin]

theorem design_fir_pureBS_out (sinf : α → α) (pif : α) (gen : WindowGen α) (n : Nat)
    (w fc : List α) (wk : WindowKind) (opt : α) (env : List α)
    (hn : n ≠ 0) (ho : n % 2 = 1) (hwin : windowCoefs gen wk n opt = some env) :
    design_fir sinf pif gen n w fc (pureBS wk) opt =
      (0, scaleFirst (1 / (bsAssemble sinf pif env fc n).2) n
        (bsAssemble sinf pif env fc n).1) := by
  unfold design_fir
  rw [core_pureBS sinf pif gen n w fc wk opt env hn ho hwin]

theorem lpAssemble_len (sinf : α → α) (pif : α) (env fc : List α) (n : Nat) :
    (lpAssemble sinf pif env fc n).1.length = env.length := by
  unfold lpAssemble mirrorFold
  rw [foldl_mirrorStep_length]
  by_cases ho : n % 2 = 1 <;> simp [ho]

theorem hpAssemble_len (sinf : α → α) (pif : α) (env fc : List α) (n : Nat) :
    (hpAssemble sinf pif env fc n).1.length = env.length := by
  unfold hpAssemble mirrorFold
  rw [foldl_mirrorStep_length]
  simp

theorem bpAssemble_len (sinf : α → α) (pif : α) (env fc : List α) (n : Nat) :
    (bpAssemble sinf pif env fc n).1.length = env.length := by
  unfold bpAssemble mirrorFold
  rw [foldl_mirrorStep_length]
  by_cases ho : n % 2 = 1 <;> simp [ho]

theorem bsAssemble_len (sinf : α → α) (pif : α) (env fc : List α) (n : Nat) :
    (bsAssemble sinf pif env fc n).1.length = env.length := by
  unfold bsAssemble mirrorFold
  rw [foldl_mirrorStep_length]
  simp

theorem lpAssemble_symm (sinf : α → α) (pif : α) (env fc : List α) (n : Nat)
    (hlen : env.length = n) :
    ∀ i < n, (lpAssemble sinf pif env fc n).1.getD i 0 =
      (lpAssemble sinf pif env fc n).1.getD (n - 1 - i) 0 := by
  unfold lpAssemble
  apply mirrorFold_symmetric
  by_cases ho : n % 2 = 1 <;> simp [ho, hlen]

theorem hpAssemble_symm (sinf : α → α) (pif : α) (env fc : List α) (n : Nat)
    (hlen : env.length = n) :
    ∀ i < n, (hpAssemble sinf pif env fc n).1.getD i 0 =
      (hpAssemble sinf pif env fc n).1.getD (n - 1 - i) 0 := by
  unfold hpAssemble
  apply mirrorFold_symmetric
  simp [hlen]

theorem bpAssemble_symm (sinf : α → α) (pif : α) (env fc : List α) (n : Nat)
    (hlen : env.length = n) :
    ∀ i < n, (bpAssemble sinf pif env fc n).1.getD i 0 =
      (bpAssemble sinf pif env fc n).1.getD (n - 1 - i) 0 := by
  unfold bpAssemble
  apply mirrorFold_symmetric
  by_cases ho : n % 2 = 1 <;> simp [ho, hlen]

theorem bsAssemble_symm (sinf : α → α) (pif : α) (env fc : List α) (n : Nat)
    (hlen : env.length = n) :
    ∀ i < n, (bsAssemble sinf pif env fc n).1.getD i 0 =
      (bsAssemble sinf pif env fc n).1.getD (n - 1 - i) 0 := by
  unfold bsAssemble
  apply mirrorFold_symmetric
  simp [hlen]

theorem lpAssemble_sum (sinf : α → α) (pif : α) (env fc : List α) (n : Nat)
    (hlen : env.length = n) :
    (lpAssemble sinf pif env fc n).1.sum = (lpAssemble sinf pif env fc n).2 := by
  unfold lpAssemble
  apply mirror_sum_two_f
  · rfl
  · by_cases ho : n % 2 = 1 <;> simp [ho, hlen]
  · intro ho
    rw [if_pos ho, if_pos ho, getD_set_over _ _ _ _ _ (by rw [hlen]; omega), if_pos rfl]
  · intro ho
    rw [if_neg (by omega : ¬n % 2 = 1)]

theorem hpAssemble_altSum (sinf : α → α) (pif : α) (env fc : List α) (n : Nat)
    (ho : n % 2 = 1) (hlen : env.length = n) :
    altSum (hpAssemble sinf pif env fc n).1 =
      (-1 : α) ^ ((n + 1) / 2 - n % 2) * (hpAssemble sinf pif env fc n).2 := by
  unfold hpAssemble
  apply mirror_altSum_hp
  · rfl
  · exact ho
  · simp [hlen]
  · rw [getD_set_over _ _ _ _ _ (by rw [hlen]; omega), if_pos rfl]

/-! ### Fill pattern of `design_pfir` -/

theorem pfir_inner (ent : Nat → α) (j : Nat) :
    ∀ (k widx : Nat) (pw : Nat → Nat → α),
      (List.range k).foldl (fun (st2 : Nat × (Nat → Nat → α)) i =>
        (st2.1 + 1, fun i' j' => if i' = i ∧ j' = j then ent st2.1 else st2.2 i' j'))
        (widx, pw) =
      (widx + k, fun i' j' => if i' < k ∧ j' = j then ent (widx + i') else pw i' j') := by
  intro k
  induction k with
  | zero =>
    intro widx pw
    simp only [List.range_zero, List.foldl_nil, Nat.add_zero]
    refine Prod.ext rfl ?_
    funext i' j'
    simp only []
    rw [if_neg (fun h => by omega)]
  | succ k ih =>
    intro widx pw
    rw [List.range_succ, List.foldl_append, List.foldl_cons, List.foldl_nil, ih widx pw]
    refine Prod.ext rfl ?_
    funext i' j'
    simp only []
    by_cases hj : j' = j
    · subst hj
      by_cases hik : i' = k
      · subst hik
        rw [if_pos ⟨rfl, rfl⟩, if_pos ⟨Nat.lt_succ_self i', rfl⟩]
      · rw [if_neg (fun h => hik h.1)]
        by_cases hlt : i' < k
        · rw [if_pos ⟨hlt, rfl⟩, if_pos ⟨by omega, rfl⟩]
        · rw [if_neg (fun h => hlt h.1), if_neg (fun h => absurd h.1 (by omega))]
    · rw [if_neg (fun h => hj h.2), if_neg (fun h => hj h.2), if_neg (fun h => hj h.2)]

theorem pfir_outer_rew (ent : Nat → Nat → α) (k : Nat) :
    ∀ (l widx : Nat) (pw : Nat → Nat → α),
      ((List.range l).reverse).foldl (fun (st : Nat × (Nat → Nat → α)) j =>
        (List.range k).foldl (fun (st2 : Nat × (Nat → Nat → α)) i =>
          (st2.1 + 1, fun i' j' => if i' = i ∧ j' = j then ent j st2.1 else st2.2 i' j'))
          st) (widx, pw) =
      (widx + k * l, fun i' j' => if i' < k ∧ j' < l then
          ent j' (widx + k * (l - 1 - j') + i') else pw i' j') := by
  intro l
  induction l with
  | zero =>
    intro widx pw
    simp only [List.range_zero, List.reverse_nil, List.foldl_nil, Nat.mul_zero, Nat.add_zero]
    refine Prod.ext rfl ?_
    funext i' j'
    simp only []
    rw [if_neg (fun h => by omega)]
  | succ l ih =>
    intro widx pw
    rw [List.range_succ, List.reverse_append, List.reverse_singleton,
      List.singleton_append, List.foldl_cons, pfir_inner (ent l) l k widx pw, ih]
    refine Prod.ext (by ring) ?_
    funext i' j'
    simp only []
    by_cases hk : i' < k
    · by_cases hjl : j' < l
      · rw [if_pos ⟨hk, hjl⟩, if_pos ⟨hk, by omega⟩]
        congr 1
        rw [show l + 1 - 1 - j' = (l - 1 - j') + 1 from by omega, Nat.mul_succ]
        ring
      · by_cases hje : j' = l
        · subst hje
          rw [if_neg (fun h => hjl h.2), if_pos ⟨hk, rfl⟩, if_pos ⟨hk, by omega⟩]
          rw [Nat.succ_sub_one, Nat.sub_self, Nat.mul_zero, Nat.add_zero]
        · rw [if_neg (fun h => hjl h.2), if_neg (fun h => hje h.2),
            if_neg (fun h => absurd h.2 (by omega))]
    · rw [if_neg (fun h => hk h.1), if_neg (fun h => hk h.1), if_neg (fun h => hk h.1)]

theorem pfir_outer_fwd (ent : Nat → Nat → α) (k : Nat) :
    ∀ (l widx : Nat) (pw : Nat → Nat → α),
      (List.range l).foldl (fun (st : Nat × (Nat → Nat → α)) j =>
        (List.range k).foldl (fun (st2 : Nat × (Nat → Nat → α)) i =>
          (st2.1 + 1, fun i' j' => if i' = i ∧ j' = j then ent j st2.1 else st2.2 i' j'))
          st) (widx, pw) =
      (widx + k * l, fun i' j' => if i' < k ∧ j' < l then
          ent j' (widx + k * j' + i') else pw i' j') := by
  intro l
  induction l with
  | zero =>
    intro widx pw
    simp only [List.range_zero, List.foldl_nil, Nat.mul_zero, Nat.add_zero]
    refine Prod.ext rfl ?_
    funext i' j'
    simp only []
    rw [if_neg (fun h => by omega)]
  | succ l ih =>
    intro widx pw
    rw [List.range_succ, List.foldl_append, List.foldl_cons, List.foldl_nil, ih widx pw,
      pfir_inner (ent l) l k]
    refine Prod.ext (by ring) ?_
    funext i' j'
    simp only []
    by_cases hk : i' < k
    · by_cases hje : j' = l
      · subst hje
        rw [if_pos ⟨hk, rfl⟩, if_pos ⟨hk, by omega⟩]
      · rw [if_neg (fun h => hje h.2)]
        by_cases hjl : j' < l
        · rw [if_pos ⟨hk, hjl⟩, if_pos ⟨hk, by omega⟩]
        · rw [if_neg (fun h => hjl h.2), if_neg (fun h => absurd h.2 (by omega))]
    · rw [if_neg (fun h => hk h.1), if_neg (fun h => hk h.1), if_neg (fun h => hk h.1)]

/-- Fill pattern of `design_pfir` with `REW` (reverse) indexing. -/
theorem design_pfir_fill_rew (n k : Nat) (w : List α) (pw : Nat → Nat → α) (g : α)
    (odd : Bool) (hk : 1 ≤ k) (hl : 1 ≤ n / k) (i j : Nat) (hi : i < k) (hj : j < n / k) :
    (design_pfir n k w pw g true odd).2 i j =
      g * w.getD ((n / k - 1 - j) * k + i) 0 *
        (if odd then (if j % 2 = 1 then -1 else 1) else 1) := by
  unfold design_pfir
  rw [if_neg (by omega : ¬(n / k < 1 ∨ k < 1)), if_pos rfl]
  simp only []
  rw [pfir_outer_rew
    (fun j m => g * w.getD m 0 * (if odd then (if j % 2 = 1 then -1 else 1) else 1)) k
    (n / k) 0 pw]
  simp only []
  rw [if_pos ⟨hi, hj⟩, Nat.zero_add, Nat.mul_comm]

/-- Fill pattern of `design_pfir` with `FWD` (forward) indexing. -/
theorem design_pfir_fill_fwd (n k : Nat) (w : List α) (pw : Nat → Nat → α) (g : α)
    (odd : Bool) (hk : 1 ≤ k) (hl : 1 ≤ n / k) (i j : Nat) (hi : i < k) (hj : j < n / k) :
    (design_pfir n k w pw g false odd).2 i j =
      g * w.getD (j * k + i) 0 *
        (if odd then (if j % 2 = 1 then 1 else -1) else 1) := by
  unfold design_pfir
  rw [if_neg (by omega : ¬(n / k < 1 ∨ k < 1))]
  rw [if_neg (by simp : ¬(false = true))]
  simp only []
  rw [pfir_outer_fwd
    (fun j m => g * w.getD m 0 * (if odd then (if j % 2 = 1 then 1 else -1) else 1)) k
    (n / k) 0 pw]
  simp only []
  rw [if_pos ⟨hi, hj⟩, Nat.zero_add, Nat.mul_comm]

/-! ### Write pattern of `updatepq` -/

theorem pq_cancel (n a b : Nat) (hn : 0 < n) (h : 2 * n * a = 2 * n * b) : a = b := by
  have ha : 2 * n * a = n * (2 * a) := by ring
  have hb : 2 * n * b = n * (2 * b) := by ring
  rw [ha, hb] at h
  have := Nat.eq_of_mul_eq_mul_left hn h
  omega

theorem pq_parity (n a b : Nat) (hn : 0 < n) : 2 * n * a ≠ 2 * n * b + n := by
  intro h
  have ha : 2 * n * a = n * (2 * a) := by ring
  have hb : 2 * n * b + n = n * (2 * b + 1) := by ring
  rw [ha, hb] at h
  have := Nat.eq_of_mul_eq_mul_left hn h
  omega

theorem updatepq_fold_spec (n xi s : Nat) (inp : Nat → α) (hn : 0 < n) :
    ∀ (d : Nat) (xq : Nat → α),
      (∀ q < d,
        ((List.range d).foldl (fun (m : Nat → α) q => fun addr =>
          if addr = 2 * n * q + xi ∨ addr = 2 * n * q + xi + n then inp (q * s)
          else m addr) xq) (2 * n * q + xi) = inp (q * s) ∧
        ((List.range d).foldl (fun (m : Nat → α) q => fun addr =>
          if addr = 2 * n * q + xi ∨ addr = 2 * n * q + xi + n then inp (q * s)
          else m addr) xq) (2 * n * q + xi + n) = inp (q * s)) ∧
      (∀ addr, (∀ q < d, addr ≠ 2 * n * q + xi ∧ addr ≠ 2 * n * q + xi + n) →
        ((List.range d).foldl (fun (m : Nat → α) q => fun addr =>
          if addr = 2 * n * q + xi ∨ addr = 2 * n * q + xi + n then inp (q * s)
          else m addr) xq) addr = xq addr) := by
  intro d
  induction d with
  | zero =>
    intro xq
    refine ⟨fun q hq => absurd hq (by omega), fun addr _ => rfl⟩
  | succ d ih =>
    intro xq
    obtain ⟨ihw, ihu⟩ := ih xq
    rw [List.range_succ, List.foldl_append, List.foldl_cons, List.foldl_nil]
    constructor
    · intro q hq
      by_cases hqd : q = d
      · subst hqd
        exact ⟨by rw [if_pos (Or.inl rfl)], by rw [if_pos (Or.inr rfl)]⟩
      · have hq' : q < d := by omega
        have h1 : 2 * n * q + xi ≠ 2 * n * d + xi := by
          intro h
          exact hqd (pq_cancel n q d hn (by omega))
        have h2 : 2 * n * q + xi ≠ 2 * n * d + xi + n := by
          intro h
          have h' : 2 * n * q = 2 * n * d + n := by omega
          exact pq_parity n q d hn h'
        have h3 : 2 * n * q + xi + n ≠ 2 * n * d + xi := by
          intro h
          have h' : 2 * n * d = 2 * n * q + n := by omega
          exact pq_parity n d q hn h'
        have h4 : 2 * n * q + xi + n ≠ 2 * n * d + xi + n := by
          intro h
          exact hqd (pq_cancel n q d hn (by omega))
        constructor
        · rw [if_neg (by rw [not_or]; exact ⟨h1, h2⟩)]
          exact (ihw q hq').1
        · rw [if_neg (by rw [not_or]; exact ⟨h3, h4⟩)]
          exact (ihw q hq').2
    · intro addr haddr
      have hd := haddr d (by omega)
      rw [if_neg (by rw [not_or]; exact hd)]
      exact ihu addr (fun q hq => haddr q (by omega))

/-! ### Cascade gain product -/

theorem cascade_prod (tanf : α → α) (pif : α) :
    ∀ (ss : List (SectionSpec α)) (k : α),
      (∀ s ∈ ss, 1 ≤ s.q ∧ s.q ≤ 1000) →
      cascade tanf pif ss k =
        some (k * (ss.map (fun s => sectionAD tanf pif s / sectionBD tanf pif s)).prod) := by
  intro ss
  induction ss with
  | nil =>
    intro k _
    simp [cascade]
  | cons s rest ih =>
    intro k h
    have hs := h s (List.mem_cons_self s rest)
    have hq : ¬(s.q > 1000 ∨ s.q < 1) := by
      push_neg
      exact ⟨hs.2, hs.1⟩
    rw [cascade, szxform, if_neg hq]
    simp only []
    rw [ih _ (fun t ht => h t (List.mem_cons_of_mem s ht))]
    rw [List.map_cons, List.prod_cons]
    congr 1
    simp only [bilinear, sectionAD, sectionBD, prewarp]
    ring

/-! ### Concrete oracles over `ℚ` for closed evaluations -/

/-- All-ones window oracle (the shape of `boxcar`). -/
def onesGen : WindowGen ℚ :=
  ⟨fun n => List.replicate n 1, fun n => List.replicate n 1, fun n => List.replicate n 1,
   fun n => List.replicate n 1, fun n => List.replicate n 1, fun n => List.replicate n 1,
   fun n _ => List.replicate n 1⟩

/-- All-zeros window oracle (a degenerate external envelope). -/
def zerosGen : WindowGen ℚ :=
  ⟨fun n => List.replicate n 0, fun n => List.replicate n 0, fun n => List.replicate n 0,
   fun n => List.replicate n 0, fun n => List.replicate n 0, fun n => List.replicate n 0,
   fun n _ => List.replicate n 0⟩

/-! ### Claims -/

/-- C1: the claim states that `design_pfir` returns `0` (success, with the
filled bank) whenever `n % k == 0` with non-null buffers, and returns the
failure result exactly when `n % k != 0` or a buffer is null.  The code's
final statement is `return -1`, so even the fully valid call `n = 4`, `k = 2`
fills the bank and still reports failure — contradicting the function's own
doc comment `returns 0 if OK, -1 if fail`.  Moreover the only length check is
`l = (int)n/k < 1`, so `n = 10`, `k = 3` is not rejected for indivisibility:
the bank is filled from the first `9` taps (entry `(2,2)` below is tap `w[8]`)
with the same unconditional `-1`. -/
theorem c1_design_pfir_always_fails :
    (design_pfir 4 2 [(1 : ℚ), 2, 3, 4] (fun _ _ => 0) 1 false false).1 = -1 ∧
    (design_pfir 4 2 [(1 : ℚ), 2, 3, 4] (fun _ _ => 0) 1 false false).2 1 1 = 4 ∧
    (design_pfir 10 3 [(1 : ℚ), 2, 3, 4, 5, 6, 7, 8, 9, 10]
      (fun _ _ => 0) 1 false false).1 = -1 ∧
    (design_pfir 10 3 [(1 : ℚ), 2, 3, 4, 5, 6, 7, 8, 9, 10]
      (fun _ _ => 0) 1 false false).2 2 2 = 9 := by
  refine ⟨by simp [design_pfir], ?_, by simp [design_pfir], ?_⟩
  · rw [design_pfir_fill_fwd 4 2 [(1 : ℚ), 2, 3, 4] (fun _ _ => 0) 1 false
      (by omega) (by norm_num) 1 1 (by omega) (by norm_num)]
    norm_num
  · rw [design_pfir_fill_fwd 10 3 [(1 : ℚ), 2, 3, 4, 5, 6, 7, 8, 9, 10] (fun _ _ => 0) 1
      false (by omega) (by norm_num) 2 2 (by omega) (by norm_num)]
    norm_num

/-- C2 counterexample: two design calls that reach the normalization with
accumulated gain `g = 0` and still get the success return code `0` (and the
taps are divided by the zero gain): a window-only selector (`HAMMING` with no
filter-type bit), and a pure LP design whose external window generator
returned an all-zero envelope. -/
theorem c2_zero_gain_counterexample :
    design_fir_gain (fun _ => (0 : ℚ)) 3 onesGen 3 [0, 0, 0] [1/2]
      ⟨.hamming, false, false, false, false⟩ 0 = 0 ∧
    (design_fir (fun _ => (0 : ℚ)) 3 onesGen 3 [0, 0, 0] [1/2]
      ⟨.hamming, false, false, false, false⟩ 0).1 = 0 ∧
    design_fir_gain (fun _ => (0 : ℚ)) 3 zerosGen 1 [0] [1/2] (pureLP .hamming) 0 = 0 ∧
    (design_fir (fun _ => (0 : ℚ)) 3 zerosGen 1 [0] [1/2] (pureLP .hamming) 0).1 = 0 := by
  refine ⟨by simp [design_fir_gain, design_fir_core, windowCoefs, onesGen],
    by simp [design_fir, design_fir_core, windowCoefs, onesGen], ?_, ?_⟩
  · simp [design_fir_gain, design_fir_core, windowCoefs, zerosGen, pureLP, mirrorFold,
      clampFC]
  · simp [design_fir, design_fir_core, windowCoefs, zerosGen, pureLP, mirrorFold]

/-- C2 amended: `design_fir` performs no zero-gain check at all.  Whenever
none of its early guards fires (`n > 0`, valid window selector, parity checks
pass), it returns the success code `0` — in particular also when the
accumulated gain at normalization is `0`, in which case it divides every tap
by that zero gain instead of failing; no `DegenerateFilter`-style failure
result exists in the code. -/
theorem c2_no_zero_gain_check (sinf : α → α) (pif : α) (gen : WindowGen α) (n : Nat)
    (w fc : List α) (flags : Flags) (opt : α)
    (hn : n ≠ 0) (hwk : flags.window ≠ .invalid)
    (hhp : ¬(flags.hp = true ∧ flags.lp = false ∧ n % 2 = 0))
    (hbs : ¬(flags.bs = true ∧ flags.bp = false ∧ n % 2 = 0))
    (hg : design_fir_gain sinf pif gen n w fc flags opt = 0) :
    (design_fir sinf pif gen n w fc flags opt).1 = 0 := by
  rw [design_fir_fst_eq]
  simp [hn, hwk, hhp, hbs]

/-- C2 amended, witness: the window-only call above satisfies every
hypothesis (gain `0` included) and indeed returns `0`. -/
theorem c2_no_zero_gain_check_witness :
    design_fir_gain (fun _ => (0 : ℚ)) 3 onesGen 3 [0, 0, 0] [1/2]
      ⟨.hamming, false, false, false, false⟩ 0 = 0 ∧
    (design_fir (fun _ => (0 : ℚ)) 3 onesGen 3 [0, 0, 0] [1/2]
      ⟨.hamming, false, false, false, false⟩ 0).1 = 0 := by
  constructor
  · simp [design_fir_gain, design_fir_core, windowCoefs, onesGen]
  · exact c2_no_zero_gain_check (fun _ => (0 : ℚ)) 3 onesGen 3 [0, 0, 0] [1/2]
      ⟨.hamming, false, false, false, false⟩ 0 (by decide) (by decide) (by decide)
      (by decide) (by simp [design_fir_gain, design_fir_core, windowCoefs, onesGen])

/-- C3: for every even `n`, every window selector and every cutoff buffer, a
pure HP or BS design returns the failure code `-1` (the code's single failure
value, which the spec taxonomy labels `ParityViolation` here); pure LP and BP
designs have no parity constraint: they succeed for every `n > 0` with a
valid window selector. -/
theorem c3_parity (sinf : α → α) (pif : α) (gen : WindowGen α) (n : Nat)
    (w fc : List α) (opt : α) (wk : WindowKind) :
    (n % 2 = 0 →
      (design_fir sinf pif gen n w fc (pureHP wk) opt).1 = -1 ∧
      (design_fir sinf pif gen n w fc (pureBS wk) opt).1 = -1) ∧
    (wk ≠ .invalid → n ≠ 0 →
      (design_fir sinf pif gen n w fc (pureLP wk) opt).1 = 0 ∧
      (design_fir sinf pif gen n w fc (pureBP wk) opt).1 = 0) := by
  constructor
  · intro ho
    constructor <;> (rw [design_fir_fst_eq]; simp [pureHP, pureBS, ho])
  · intro hwk hn
    constructor <;> (rw [design_fir_fst_eq]; simp [pureLP, pureBP, hwk, hn])

/-- C3 witness: concrete instances of both halves. -/
theorem c3_parity_witness :
    ((design_fir (fun _ => (0 : ℚ)) 3 onesGen 4 [] [] (pureHP .hamming) 0).1 = -1 ∧
      (design_fir (fun _ => (0 : ℚ)) 3 onesGen 4 [] [] (pureBS .hamming) 0).1 = -1) ∧
    ((design_fir (fun _ => (0 : ℚ)) 3 onesGen 5 [] [] (pureLP .hamming) 0).1 = 0 ∧
      (design_fir (fun _ => (0 : ℚ)) 3 onesGen 5 [] [] (pureBP .hamming) 0).1 = 0) := by
  constructor
  · exact (c3_parity (fun _ => (0 : ℚ)) 3 onesGen 4 [] [] 0 .hamming).1 rfl
  · exact (c3_parity (fun _ => (0 : ℚ)) 3 onesGen 5 [] [] 0 .hamming).2
      (by decide) (by decide)

/-- C4 counterexample: the HP half of the claim fails.  For the successful
pure HP design with `n = 7` below (return code `0`), the alternating-sign
sum of the returned taps is `-1`, not within `1e-6` of `1.0` — the center
tap sits at index `3`, an odd position, so the plain alternating sum counts
it with sign `(-1)^3`. -/
theorem c4_hp_altsum_counterexample :
    (design_fir (fun _ => (0 : ℚ)) 3 onesGen 7 [] [1/2] (pureHP .hamming) 0).1 = 0 ∧
    altSum (design_fir (fun _ => (0 : ℚ)) 3 onesGen 7 [] [1/2] (pureHP .hamming) 0).2 =
      -1 ∧
    ¬(|altSum (design_fir (fun _ => (0 : ℚ)) 3 onesGen 7 [] [1/2]
        (pureHP .hamming) 0).2 - 1| ≤ 1 / 1000000) := by
  have key : (design_fir (fun _ => (0 : ℚ)) 3 onesGen 7 [] [1/2] (pureHP .hamming) 0) =
      (0, [0, 0, 0, 1, 0, 0, 0]) := by
    have h1 : List.range 3 = [0, 1, 2] := rfl
    have h2 : List.replicate 7 (1 : ℚ) = [1, 1, 1, 1, 1, 1, 1] := rfl
    norm_num [design_fir, design_fir_core, windowCoefs, onesGen, pureHP, mirrorFold,
      mirrorStep, hpTap, hpGain, sincT, clampFC, h1, h2, scaleFirst, List.getD]
  rw [key]
  refine ⟨rfl, by norm_num [altSum], by norm_num [altSum]⟩

/-- C4 (amended): for every successful nondegenerate pure LP design (nonzero
accumulated gain) the sum of the returned taps is exactly `1` in exact
arithmetic (hence within `1e-6` in floats); for every successful
nondegenerate pure HP design the alternating-sign sum of the returned taps is
`(-1)^((n-1)/2)` — absolute value `1`, but the sign flips with the parity of
`(n-1)/2` rather than always being `+1` as claimed. -/
theorem c4_gain_sums (sinf : α → α) (pif : α) (gen : WindowGen α) (n : Nat)
    (w fc : List α) (wk : WindowKind) (opt : α) (env : List α)
    (hwin : windowCoefs gen wk n opt = some env) (hlen : env.length = n) :
    (design_fir_gain sinf pif gen n w fc (pureLP wk) opt ≠ 0 →
      (design_fir sinf pif gen n w fc (pureLP wk) opt).2.sum = 1) ∧
    (design_fir_gain sinf pif gen n w fc (pureHP wk) opt ≠ 0 →
      altSum (design_fir sinf pif gen n w fc (pureHP wk) opt).2 =
        (-1 : α) ^ ((n - 1) / 2)) := by
  constructor
  · intro hg
    have hn : n ≠ 0 := by
      intro h
      subst h
      exact hg (by simp [design_fir_gain, design_fir_core])
    obtain ⟨hout, hgain⟩ := design_fir_pureLP_out sinf pif gen n w fc wk opt env hn hwin
    rw [hgain] at hg
    rw [hout]
    dsimp only
    rw [sum_scaleFirst _ n _ (le_of_eq ((lpAssemble_len sinf pif env fc n).trans hlen)),
      lpAssemble_sum sinf pif env fc n hlen, one_div, inv_mul_cancel₀ hg]
  · intro hg
    have hn : n ≠ 0 := by
      intro h
      subst h
      exact hg (by simp [design_fir_gain, design_fir_core])
    have ho : n % 2 = 1 := by
      rcases Nat.mod_two_eq_zero_or_one n with h | h
      · exfalso
        apply hg
        apply gain_zero_of_ret_fail
        rw [design_fir_fst_eq]
        simp [pureHP, h]
      · exact h
    obtain ⟨hout, hgain⟩ := design_fir_pureHP_out sinf pif gen n w fc wk opt env hn ho hwin
    rw [hgain] at hg
    rw [hout]
    dsimp only
    rw [altSum_scaleFirst _ n _
        (le_of_eq ((hpAssemble_len sinf pif env fc n).trans hlen)),
      hpAssemble_altSum sinf pif env fc n ho hlen,
      show (n + 1) / 2 - n % 2 = (n - 1) / 2 from by omega,
      show (1 / (hpAssemble sinf pif env fc n).2) *
          ((-1 : α) ^ ((n - 1) / 2) * (hpAssemble sinf pif env fc n).2) =
          (-1 : α) ^ ((n - 1) / 2) *
            ((1 / (hpAssemble sinf pif env fc n).2) * (hpAssemble sinf pif env fc n).2)
        from by ring,
      one_div, inv_mul_cancel₀ hg, mul_one]

/-- C4 (amended) witness: concrete `n = 7` LP and HP designs; the LP tap sum
is `1`, the HP alternating sum is `(-1)^3 = -1`. -/
theorem c4_gain_sums_witness :
    (design_fir (fun _ => (0 : ℚ)) 3 onesGen 7 [] [1/2] (pureLP .hamming) 0).2.sum = 1 ∧
    altSum (design_fir (fun _ => (0 : ℚ)) 3 onesGen 7 [] [1/2] (pureHP .hamming) 0).2 =
      (-1 : ℚ) ^ ((7 - 1) / 2) := by
  have h1 : List.range 3 = [0, 1, 2] := rfl
  have h2 : List.replicate 7 (1 : ℚ) = [1, 1, 1, 1, 1, 1, 1] := rfl
  have hg1 : design_fir_gain (fun _ => (0 : ℚ)) 3 onesGen 7 [] [1/2]
      (pureLP .hamming) 0 ≠ 0 := by
    norm_num [design_fir_gain, design_fir_core, windowCoefs, onesGen, pureLP, mirrorFold,
      mirrorStep, lpTap, sincT, clampFC, h1, h2, List.getD]
  have hg2 : design_fir_gain (fun _ => (0 : ℚ)) 3 onesGen 7 [] [1/2]
      (pureHP .hamming) 0 ≠ 0 := by
    norm_num [design_fir_gain, design_fir_core, windowCoefs, onesGen, pureHP, mirrorFold,
      mirrorStep, hpTap, hpGain, sincT, clampFC, h1, h2, List.getD]
  exact ⟨(c4_gain_sums (fun _ => (0 : ℚ)) 3 onesGen 7 [] [1/2] .hamming 0
      (List.replicate 7 1) rfl rfl).1 hg1,
    (c4_gain_sums (fun _ => (0 : ℚ)) 3 onesGen 7 [] [1/2] .hamming 0
      (List.replicate 7 1) rfl rfl).2 hg2⟩

/-- C5: every successful pure-kind design (LP, HP, BP or BS selector) returns
a symmetric tap buffer: `taps[i] == taps[n-1-i]` for every `i < n`. -/
theorem c5_symmetry (sinf : α → α) (pif : α) (gen : WindowGen α) (n : Nat)
    (w fc : List α) (wk : WindowKind) (opt : α) (env : List α) (flags : Flags)
    (hkind : flags = pureLP wk ∨ flags = pureHP wk ∨ flags = pureBP wk ∨
      flags = pureBS wk)
    (hwin : windowCoefs gen wk n opt = some env) (hlen : env.length = n)
    (hret : (design_fir sinf pif gen n w fc flags opt).1 = 0) :
    ∀ i < n, (design_fir sinf pif gen n w fc flags opt).2.getD i 0 =
      (design_fir sinf pif gen n w fc flags opt).2.getD (n - 1 - i) 0 := by
  have hn : n ≠ 0 := by
    intro h
    rw [design_fir_fst_eq] at hret
    simp [h] at hret
  rcases hkind with hk | hk | hk | hk <;> subst hk
  · obtain ⟨hout, _⟩ := design_fir_pureLP_out sinf pif gen n w fc wk opt env hn hwin
    intro i hi
    rw [hout]
    dsimp only
    rw [getD_scaleFirst _ n i _ hi, getD_scaleFirst _ n (n - 1 - i) _ (by omega),
      lpAssemble_symm sinf pif env fc n hlen i hi]
  · have ho : n % 2 = 1 := by
      rcases Nat.mod_two_eq_zero_or_one n with h | h
      · rw [design_fir_fst_eq] at hret
        simp [pureHP, h] at hret
      · exact h
    obtain ⟨hout, _⟩ := design_fir_pureHP_out sinf pif gen n w fc wk opt env hn ho hwin
    intro i hi
    rw [hout]
    dsimp only
    rw [getD_scaleFirst _ n i _ hi, getD_scaleFirst _ n (n - 1 - i) _ (by omega),
      hpAssemble_symm sinf pif env fc n hlen i hi]
  · have hout := design_fir_pureBP_out sinf pif gen n w fc wk opt env hn hwin
    intro i hi
    rw [hout]
    dsimp only
    rw [getD_scaleFirst _ n i _ hi, getD_scaleFirst _ n (n - 1 - i) _ (by omega),
      bpAssemble_symm sinf pif env fc n hlen i hi]
  · have ho : n % 2 = 1 := by
      rcases Nat.mod_two_eq_zero_or_one n with h | h
      · rw [design_fir_fst_eq] at hret
        simp [pureBS, h] at hret
      · exact h
    have hout := design_fir_pureBS_out sinf pif gen n w fc wk opt env hn ho hwin
    intro i hi
    rw [hout]
    dsimp only
    rw [getD_scaleFirst _ n i _ hi, getD_scaleFirst _ n (n - 1 - i) _ (by omega),
      bsAssemble_symm sinf pif env fc n hlen i hi]

/-- C5 witness: a successful even-length LP design; position `0` equals its
mirror position `3`. -/
theorem c5_symmetry_witness :
    (design_fir (fun _ => (0 : ℚ)) 3 onesGen 4 [] [1/2] (pureLP .hamming) 0).2.getD 0 0 =
      (design_fir (fun _ => (0 : ℚ)) 3 onesGen 4 [] [1/2]
        (pureLP .hamming) 0).2.getD (4 - 1 - 0) 0 := by
  exact c5_symmetry (fun _ => (0 : ℚ)) 3 onesGen 4 [] [1/2] .hamming 0
    (List.replicate 4 1) (pureLP .hamming) (Or.inl rfl) rfl rfl
    (by rw [design_fir_fst_eq]; simp [pureLP]) 0 (by omega)

/-- C6: out-of-range cutoffs (`fc ≤ 0` or `fc > 1`) never make `design_fir`
fail: the clamp substitutes the default effective cutoff `0.25` (`= 1/4`,
which equals the halved in-range cutoff `0.5`), so designs with out-of-range
cutoff coincide with designs at cutoff `1/2`; in-range cutoffs are used as
given, internally halved; the return code never depends on `fc` at all; and
clamp-not-fail does not extend to the length/parity checks, which still fail
for every cutoff. -/
theorem c6_cutoff_clamp (sinf : α → α) (pif : α) (gen : WindowGen α) (n : Nat)
    (w : List α) (opt : α) :
    (∀ c : α, ¬(c ≤ 1 ∧ 0 < c) → clampFC c = 1 / 4) ∧
    (∀ c : α, (c ≤ 1 ∧ 0 < c) → clampFC c = c / 2) ∧
    (∀ (c : α) (flags : Flags), ¬(c ≤ 1 ∧ 0 < c) →
      design_fir sinf pif gen n w [c] flags opt =
        design_fir sinf pif gen n w [(1 : α) / 2] flags opt) ∧
    (∀ (fc fc' : List α) (flags : Flags),
      (design_fir sinf pif gen n w fc flags opt).1 =
        (design_fir sinf pif gen n w fc' flags opt).1) ∧
    (∀ (fc : List α) (wk : WindowKind), n % 2 = 0 →
      (design_fir sinf pif gen n w fc (pureHP wk) opt).1 = -1 ∧
      (design_fir sinf pif gen n w fc (pureBS wk) opt).1 = -1) := by
  refine ⟨?_, ?_, ?_, ?_, ?_⟩
  · intro c hc
    rw [clampFC, if_neg hc]
  · intro c hc
    rw [clampFC, if_pos hc]
  · intro c flags hc
    apply design_fir_fc_congr
    · rw [show ([c] : List α).getD 0 0 = c from rfl,
        show ([(1 : α) / 2] : List α).getD 0 0 = (1 : α) / 2 from rfl]
      simp only [clampFC]
      rw [if_neg hc, if_pos (by constructor <;> norm_num)]
      norm_num
    · rfl
  · intro fc fc' flags
    rw [design_fir_fst_eq, design_fir_fst_eq]
  · intro fc wk ho
    constructor <;> (rw [design_fir_fst_eq]; simp [pureHP, pureBS, ho])

/-- C6 witness: concrete instances of each part over `ℚ`. -/
theorem c6_cutoff_clamp_witness :
    clampFC (3 : ℚ) = 1 / 4 ∧
    clampFC (1 / 2 : ℚ) = (1 / 2) / 2 ∧
    design_fir (fun _ => (0 : ℚ)) 3 onesGen 5 [] [3] (pureLP .hamming) 0 =
      design_fir (fun _ => (0 : ℚ)) 3 onesGen 5 [] [1 / 2] (pureLP .hamming) 0 ∧
    (design_fir (fun _ => (0 : ℚ)) 3 onesGen 5 [] [7] (pureBP .hamming) 0).1 =
      (design_fir (fun _ => (0 : ℚ)) 3 onesGen 5 [] [] (pureBP .hamming) 0).1 ∧
    (design_fir (fun _ => (0 : ℚ)) 3 onesGen 4 [] [3] (pureHP .hamming) 0).1 = -1 := by
  refine ⟨(c6_cutoff_clamp (fun _ => (0 : ℚ)) 3 onesGen 5 [] 0).1 3 (by norm_num),
    (c6_cutoff_clamp (fun _ => (0 : ℚ)) 3 onesGen 5 [] 0).2.1 (1 / 2) (by norm_num),
    (c6_cutoff_clamp (fun _ => (0 : ℚ)) 3 onesGen 5 [] 0).2.2.1 3
      (pureLP .hamming) (by norm_num),
    (c6_cutoff_clamp (fun _ => (0 : ℚ)) 3 onesGen 5 [] 0).2.2.2.1 [7] []
      (pureBP .hamming),
    ((c6_cutoff_clamp (fun _ => (0 : ℚ)) 3 onesGen 4 [] 0).2.2.2.2 [3]
      .hamming rfl).1⟩

/-- C7: every cascade of `szxform` calls threading the shared gain
accumulator `k` initialized to `1.0` (each with `Q` in range, so every call
succeeds) ends with `k` equal to the product over the sections of `ad/bd`,
where `ad` is computed from the section's prewarped numerator and `bd` from
its prewarped, `Q`-divided denominator; no call resets `k`. -/
theorem c7_cascade_gain (tanf : α → α) (pif : α) (ss : List (SectionSpec α))
    (hq : ∀ s ∈ ss, 1 ≤ s.q ∧ s.q ≤ 1000) :
    cascade tanf pif ss 1 =
      some ((ss.map (fun s => sectionAD tanf pif s / sectionBD tanf pif s)).prod) := by
  rw [cascade_prod tanf pif ss 1 hq, one_mul]

/-- C7 witness: a concrete two-section cascade over `ℚ`. -/
theorem c7_cascade_gain_witness :
    cascade (fun _ => (1 : ℚ)) 3
      ([⟨⟨1, 0, 0⟩, ⟨1, 1, 1⟩, 1, 1, 1⟩, ⟨⟨0, 1, 2⟩, ⟨1, 2, 1⟩, 2, 1, 1⟩] :
        List (SectionSpec ℚ)) 1 =
      some ((([⟨⟨1, 0, 0⟩, ⟨1, 1, 1⟩, 1, 1, 1⟩, ⟨⟨0, 1, 2⟩, ⟨1, 2, 1⟩, 2, 1, 1⟩] :
        List (SectionSpec ℚ)).map
          (fun s => sectionAD (fun _ => (1 : ℚ)) 3 s /
            sectionBD (fun _ => (1 : ℚ)) 3 s)).prod) := by
  exact c7_cascade_gain (fun _ => (1 : ℚ)) 3 _
    (by intro s hs; fin_cases hs <;> exact ⟨by norm_num, by norm_num⟩)

/-- C8: fill pattern of the polyphase bank.  With `Reverse` direction the
prototype taps fill columns right-to-left (column `j` holds taps
`(l-1-j)*k .. (l-1-j)*k + k-1`) and `invert` negates the odd-indexed
columns; with `Forward` direction columns fill left-to-right and `invert`
negates the even-indexed columns; without `invert` no sign change occurs;
every element carries the `gain` factor `g`. -/
theorem c8_polyphase_pattern (n k : Nat) (w : List α) (pw : Nat → Nat → α) (g : α)
    (odd : Bool) (hk : 1 ≤ k) (hl : 1 ≤ n / k) :
    ∀ i < k, ∀ j < n / k,
      (design_pfir n k w pw g true odd).2 i j =
        g * w.getD ((n / k - 1 - j) * k + i) 0 *
          (if odd then (if j % 2 = 1 then -1 else 1) else 1) ∧
      (design_pfir n k w pw g false odd).2 i j =
        g * w.getD (j * k + i) 0 *
          (if odd then (if j % 2 = 1 then 1 else -1) else 1) := by
  intro i hi j hj
  exact ⟨design_pfir_fill_rew n k w pw g odd hk hl i j hi hj,
    design_pfir_fill_fwd n k w pw g odd hk hl i j hi hj⟩

/-- C8 witness: `n = 6`, `k = 2`, `invert` on, element `(1,2)` in both
directions. -/
theorem c8_polyphase_pattern_witness :
    (design_pfir 6 2 [(10 : ℚ), 20, 30, 40, 50, 60] (fun _ _ => 0) 2 true true).2 1 2 =
      40 ∧
    (design_pfir 6 2 [(10 : ℚ), 20, 30, 40, 50, 60] (fun _ _ => 0) 2 false true).2 1 2 =
      -120 := by
  obtain ⟨h1, h2⟩ := c8_polyphase_pattern 6 2 [(10 : ℚ), 20, 30, 40, 50, 60]
    (fun _ _ => 0) 2 true (by omega) (by omega) 1 (by omega) 2 (by omega)
  rw [h1, h2]
  norm_num

/-- C9: for a power-of-two filter length `n`, cursor `xi < n` and `d ≥ 1`
filters, `updatepq` writes sample `q` to exactly the two cells `xi` and
`xi+n` of queue `q` (all other memory is untouched) and returns the advanced
cursor `(xi+1) mod n`, which again lies in `[0, n)`. -/
theorem c9_updatepq (m n d xi s : Nat) (xq inp : Nat → α)
    (hn : n = 2 ^ m) (hxi : xi < n) (hd : 1 ≤ d) :
    (∀ q < d, (updatepq n d xi xq inp s).1 (2 * n * q + xi) = inp (q * s) ∧
              (updatepq n d xi xq inp s).1 (2 * n * q + xi + n) = inp (q * s)) ∧
    (∀ addr, (∀ q < d, addr ≠ 2 * n * q + xi ∧ addr ≠ 2 * n * q + xi + n) →
      (updatepq n d xi xq inp s).1 addr = xq addr) ∧
    (updatepq n d xi xq inp s).2 = (xi + 1) % n ∧
    (updatepq n d xi xq inp s).2 < n := by
  have hn0 : 0 < n := by
    subst hn
    exact Nat.pos_pow_of_pos m (by omega)
  obtain ⟨hw, hu⟩ := updatepq_fold_spec n xi s inp hn0 d xq
  have hcur : (updatepq n d xi xq inp s).2 = (xi + 1) % n := by
    show (xi + 1) &&& (n - 1) = (xi + 1) % n
    subst hn
    exact Nat.and_pow_two_sub_one_eq_mod (xi + 1) m
  refine ⟨hw, hu, hcur, ?_⟩
  rw [hcur]
  exact Nat.mod_lt _ hn0

/-- C9 witness: `n = 4 = 2^2`, `xi = 2`, two queues, stride `3`. -/
theorem c9_updatepq_witness :
    (updatepq 4 2 2 (fun _ => (0 : ℚ)) (fun i => (i : ℚ)) 3).1 (2 * 4 * 1 + 2) =
      ((1 * 3 : Nat) : ℚ) ∧
    (updatepq 4 2 2 (fun _ => (0 : ℚ)) (fun i => (i : ℚ)) 3).2 = (2 + 1) % 4 ∧
    (updatepq 4 2 2 (fun _ => (0 : ℚ)) (fun i => (i : ℚ)) 3).2 < 4 := by
  obtain ⟨hw, _, hcur, hlt⟩ := c9_updatepq 2 4 2 2 3 (fun _ => (0 : ℚ))
    (fun i => (i : ℚ)) (by norm_num) (by omega) (by omega)
  exact ⟨(hw 1 (by omega)).1, hcur, hlt⟩

/-- C10: a pure HP or BS design request with even length and a valid window
selector fails only after the window generator has already overwritten the
caller's tap buffer: the returned buffer state is the window envelope, not
the original contents — the failing call is not atomic in its output
buffer. -/
theorem c10_failure_overwrites_buffer (sinf : α → α) (pif : α) (gen : WindowGen α)
    (n : Nat) (w fc : List α) (wk : WindowKind) (opt : α) (env : List α)
    (hn : n ≠ 0) (ho : n % 2 = 0) (hwin : windowCoefs gen wk n opt = some env) :
    design_fir sinf pif gen n w fc (pureHP wk) opt = (-1, env) ∧
    design_fir sinf pif gen n w fc (pureBS wk) opt = (-1, env) := by
  constructor
  · unfold design_fir design_fir_core
    simp only [pureHP]
    rw [if_neg hn, hwin]
    simp [ho]
  · unfold design_fir design_fir_core
    simp only [pureBS]
    rw [if_neg hn, hwin]
    simp [ho]

/-- C10 witness: the caller's buffer `[9,9,9,9]` comes back as the all-ones
envelope together with the failure code. -/
theorem c10_failure_overwrites_buffer_witness :
    design_fir (fun _ => (0 : ℚ)) 3 onesGen 4 [9, 9, 9, 9] [] (pureHP .hamming) 0 =
      (-1, List.replicate 4 1) ∧
    design_fir (fun _ => (0 : ℚ)) 3 onesGen 4 [9, 9, 9, 9] [] (pureBS .hamming) 0 =
      (-1, List.replicate 4 1) := by
  exact c10_failure_overwrites_buffer (fun _ => (0 : ℚ)) 3 onesGen 4 [9, 9, 9, 9] []
    .hamming 0 (List.replicate 4 1) (by decide) (by decide) rfl

end Mpv
